import Mathlib

/-!
# Verification of the `summavi` repository

Shallow embedding of the three source modules:

* `src/summavi/window.py` — the sliding-window aggregation engine
  (`moving_window`), embedded over exact rationals; the generator's two
  `while` loops become fuel-indexed recursions whose fuel is computed in
  closed form and proved sufficient.
* `src/summavi/settings.py` — `Settings.load`, with the file system and the
  YAML parser abstracted to a `YamlSource` input.
* `src/summavi/data_extraction.py` — `get_data`, with the FIT reader
  abstracted to a list of `FitFrame` records.
-/

/-- Output unit of the window engine: the tuple yielded by `moving_window`
(`window.py`, line 82).  `function_output = none` models the Python `None`
sentinel stored when the aggregation function raised. -/
structure WindowDescriptor (R : Type) where
  window_begin_time : ℚ
  window_end_time : ℚ
  window_begin_index : ℕ
  window_end_index : ℕ
  function_output : Option R
deriving Repr, DecidableEq

/-- The user-supplied aggregation function together with the
`pass_time_in_window` flag of `moving_window` (`window.py`, lines 71-77):
`withTime` is the `pass_time_in_window = True` shape
`function(timeInWindow, signalInWindow)`, `signalOnly` the
`pass_time_in_window = False` shape `function(signalInWindow)`.
A result of `none` models the call raising an exception. -/
inductive AggFunction (R : Type) where
  | withTime (f : List ℚ → List ℚ → Option R)
  | signalOnly (f : List ℚ → Option R)

/-- Invocation of the aggregation function, including the Python
`try ... except: function_output = None` (`window.py`, lines 69-80):
a raised exception (`none`) is caught and becomes the stored `none`. -/
def AggFunction.call {R : Type} : AggFunction R → List ℚ → List ℚ → Option R
  | .withTime f, t, s => f t s
  | .signalOnly f, _, s => f s

/-- `np.where((time >= window_begin_time) & (time < window_end_time))[0]`
(`window.py`, line 62): the positions of the samples falling in the
half-open interval, in increasing order. -/
def window_indices (time : List ℚ) (b e : ℚ) : List ℕ :=
  (List.range time.length).filter fun i =>
    decide (b ≤ time.getD i 0 ∧ time.getD i 0 < e)

/-- One iteration body of the main loop (`window.py`, lines 62-82): if the
index set is empty nothing is emitted, otherwise one descriptor is emitted
whose begin/end indices are the first and last matching positions and whose
result is the function applied to the prefixes `time[:window_end_index]`
and `signal[:window_end_index]`. -/
def window_step {R : Type} (time signal : List ℚ) (f : AggFunction R)
    (b e : ℚ) : List (WindowDescriptor R) :=
  let idxs := window_indices time b e
  if idxs.isEmpty then []
  else
    let bi := idxs.headD 0
    let ei := idxs.getLastD 0
    [⟨b, e, bi, ei, f.call (time.take ei) (signal.take ei)⟩]

/-- The fast-forward loop (`window.py`, lines 48-51): while the window end
is strictly below the first time point, advance the window begin by one
step.  Fuel-indexed; `align_fuel` below computes the exact number of
advances actually performed. -/
def mw_align (head window_length time_step : ℚ) : ℕ → ℚ → ℚ
  | 0, b => b
  | fuel + 1, b =>
    if b + window_length < head then
      mw_align head window_length time_step fuel (b + time_step)
    else b

/-- Exact number of advances performed by the fast-forward loop when it
starts at `b` (proved exact in `mw_align_spec`). -/
def align_fuel (head window_length time_step b : ℚ) : ℕ :=
  (⌈(head - (b + window_length)) / time_step⌉).toNat

/-- The main loop of `moving_window` (`window.py`, lines 60-94): run the
iteration body, then, if the window end is still strictly below the last
time point, advance by one step and continue; otherwise stop.  Fuel-indexed;
`loop_fuel` below computes the exact number of iterations performed. -/
def mw_loop {R : Type} (time signal : List ℚ) (f : AggFunction R)
    (window_length time_step : ℚ) : ℕ → ℚ → List (WindowDescriptor R)
  | 0, _ => []
  | fuel + 1, b =>
    window_step time signal f b (b + window_length) ++
      (if b + window_length < time.getLastD 0 then
        mw_loop time signal f window_length time_step fuel (b + time_step)
      else [])

/-- Exact number of iterations performed by the main loop when it starts at
`b` (proved exact in `mw_iterations_spec` and `mw_loop_fuel_le`). -/
def loop_fuel (last window_length time_step b : ℚ) : ℕ :=
  (⌈(last - (b + window_length)) / time_step⌉).toNat + 1

/-- The begin times of the windows actually tested by the main loop, in
order: the same recursion as `mw_loop`, recording every iteration whether
or not it emits. -/
def mw_iterations (last window_length time_step : ℚ) : ℕ → ℚ → List ℚ
  | 0, _ => []
  | fuel + 1, b =>
    b :: (if b + window_length < last then
      mw_iterations last window_length time_step fuel (b + time_step)
    else [])

/-- Origin resolution and alignment of `moving_window` (`window.py`,
lines 39-51): `time0 = time[0]` when unset, then fast-forward. -/
def aligned_origin (time : List ℚ) (window_length time_step : ℚ)
    (time0 : Option ℚ) : ℚ :=
  let t0 := time0.getD (time.headD 0)
  mw_align (time.headD 0) window_length time_step
    (align_fuel (time.headD 0) window_length time_step t0) t0

/-- `moving_window(time, signal, window_length, time_step, function, time0,
pass_time_in_window)` (`window.py`, lines 4-94), with the generator's output
materialised as the list of yielded tuples. -/
def moving_window {R : Type} (time signal : List ℚ)
    (window_length time_step : ℚ) (f : AggFunction R)
    (time0 : Option ℚ) : List (WindowDescriptor R) :=
  let b0 := aligned_origin time window_length time_step time0
  mw_loop time signal f window_length time_step
    (loop_fuel (time.getLastD 0) window_length time_step b0) b0

/-! ## Lemmas about `window_indices` -/

theorem mem_window_indices {time : List ℚ} {b e : ℚ} {i : ℕ} :
    i ∈ window_indices time b e ↔
      i < time.length ∧ b ≤ time.getD i 0 ∧ time.getD i 0 < e := by
  simp [window_indices, List.mem_filter, List.mem_range]

theorem window_indices_pairwise (time : List ℚ) (b e : ℚ) :
    (window_indices time b e).Pairwise (· < ·) :=
  (List.pairwise_lt_range _).filter _

theorem getLastD_of_ne_nil {l : List ℕ} (h : l ≠ []) (d : ℕ) :
    l.getLastD d = l.getLast h := by
  rw [List.getLastD_eq_getLast?, List.getLast?_eq_getLast l h, Option.getD_some]

theorem headD_of_ne_nil {l : List ℕ} (h : l ≠ []) (d : ℕ) :
    l.headD d = l.head h := by
  cases l with
  | nil => exact absurd rfl h
  | cons a t => rfl

theorem headD_mem_of_ne_nil {l : List ℕ} (h : l ≠ []) : l.headD 0 ∈ l := by
  rw [headD_of_ne_nil h]
  exact List.head_mem h

theorem getLastD_mem_of_ne_nil {l : List ℕ} (h : l ≠ []) : l.getLastD 0 ∈ l := by
  rw [getLastD_of_ne_nil h]
  exact List.getLast_mem h

theorem sorted_headD_le {l : List ℕ} (hp : l.Pairwise (· < ·)) {x : ℕ}
    (hx : x ∈ l) : l.headD 0 ≤ x := by
  cases l with
  | nil => cases hx
  | cons a t =>
    rcases List.mem_cons.mp hx with rfl | hxt
    · exact le_refl _
    · exact le_of_lt ((List.pairwise_cons.mp hp).1 x hxt)

theorem sorted_le_getLastD {l : List ℕ} (hp : l.Pairwise (· < ·)) {x : ℕ}
    (hx : x ∈ l) : x ≤ l.getLastD 0 := by
  have hne : l ≠ [] := List.ne_nil_of_mem hx
  rw [getLastD_of_ne_nil hne, List.getLast_eq_getElem]
  obtain ⟨j, hj, rfl⟩ := List.mem_iff_getElem.mp hx
  rcases Nat.lt_or_ge j (l.length - 1) with hlt | hge
  · exact le_of_lt (List.pairwise_iff_getElem.mp hp j (l.length - 1) hj
      (by omega) hlt)
  · have : j = l.length - 1 := by omega
    subst this
    exact le_refl _

/-! ## Lemmas about `window_step` and `mw_loop` -/

theorem window_step_of_empty {R : Type} (time signal : List ℚ)
    (f : AggFunction R) (b e : ℚ) (h : window_indices time b e = []) :
    window_step time signal f b e = [] := by
  simp [window_step, h]

theorem window_step_length_le {R : Type} (time signal : List ℚ)
    (f : AggFunction R) (b e : ℚ) :
    (window_step time signal f b e).length ≤ 1 := by
  by_cases h : (window_indices time b e).isEmpty <;> simp [window_step, h]

theorem window_step_mem {R : Type} {time signal : List ℚ}
    {f : AggFunction R} {b e : ℚ} {d : WindowDescriptor R}
    (hd : d ∈ window_step time signal f b e) :
    window_indices time b e ≠ [] ∧
    d.window_begin_time = b ∧ d.window_end_time = e ∧
    d.window_begin_index = (window_indices time b e).headD 0 ∧
    d.window_end_index = (window_indices time b e).getLastD 0 ∧
    d.function_output =
      f.call (time.take d.window_end_index) (signal.take d.window_end_index) := by
  unfold window_step at hd
  by_cases h : (window_indices time b e).isEmpty
  · simp [h] at hd
  · simp [h] at hd
    subst hd
    refine ⟨by simpa [List.isEmpty_iff] using h, rfl, rfl, ?_, ?_, rfl⟩ <;>
      simp [List.headD_eq_head?, List.getLastD_eq_getLast?]

theorem mw_loop_mem {R : Type} {time signal : List ℚ} {f : AggFunction R}
    {window_length time_step : ℚ} :
    ∀ (fuel : ℕ) (b : ℚ), ∀ d ∈ mw_loop time signal f window_length time_step fuel b,
      ∃ k : ℕ, d ∈ window_step time signal f (b + k * time_step)
        (b + k * time_step + window_length) := by
  intro fuel
  induction fuel with
  | zero => intro b d hd; cases hd
  | succ n ih =>
    intro b d hd
    simp only [mw_loop] at hd
    rcases List.mem_append.mp hd with h | h
    · refine ⟨0, ?_⟩
      have h0 : b + (0 : ℕ) * time_step = b := by push_cast; ring
      rw [h0]
      exact h
    · by_cases hc : b + window_length < time.getLastD 0
      · rw [if_pos hc] at h
        obtain ⟨k, hk⟩ := ih (b + time_step) d h
        refine ⟨k + 1, ?_⟩
        have h1 : b + ((k + 1 : ℕ) : ℚ) * time_step =
            b + time_step + (k : ℚ) * time_step := by push_cast; ring
        rw [h1]
        exact hk
      · rw [if_neg hc] at h
        cases h

/-! ## C1: content handed to the aggregation function -/

/-- C1: for every emitted window descriptor, the content passed to the
aggregation function is the series prefix `series[0 .. end_index]`
(Python slice `series[0:end_index]`, i.e. `List.take end_index`), not the
slice `[begin_index .. end_index]`; and when `pass_time_in_window` is set
(the `withTime` shape) the same prefix policy applies to both the
timestamp channel and the value channel. -/
theorem moving_window_content_policy {R : Type} (time signal : List ℚ)
    (window_length time_step : ℚ) (f : AggFunction R) (time0 : Option ℚ)
    (d : WindowDescriptor R)
    (hd : d ∈ moving_window time signal window_length time_step f time0) :
    d.function_output =
      f.call (time.take d.window_end_index) (signal.take d.window_end_index) ∧
    ∀ g : List ℚ → List ℚ → Option R, f = AggFunction.withTime g →
      d.function_output =
        g (time.take d.window_end_index) (signal.take d.window_end_index) := by
  obtain ⟨k, hk⟩ := mw_loop_mem _ _ d hd
  obtain ⟨-, -, -, -, -, hout⟩ := window_step_mem hk
  refine ⟨hout, ?_⟩
  rintro g rfl
  exact hout

/-- Witness for `moving_window_content_policy` at a concrete input: the
series `time = [0, 1]`, `signal = [5, 7]` with unit windows emits the
descriptor `⟨0, 1, 0, 0, some 0⟩`, whose result is the function applied to
the prefixes of length `end_index = 0` of both channels. -/
theorem moving_window_content_policy_witness :
    (⟨0, 1, 0, 0, some (0 : ℚ)⟩ : WindowDescriptor ℚ).function_output =
      (AggFunction.withTime fun t s => some (t.sum + s.sum)).call
        (([0, 1] : List ℚ).take 0) (([5, 7] : List ℚ).take 0) :=
  (moving_window_content_policy [0, 1] [5, 7] 1 1
    (AggFunction.withTime fun t s => some (t.sum + s.sum)) none
    ⟨0, 1, 0, 0, some 0⟩ (by with_unfolding_all decide)).1

/-! ## Exactness of the fast-forward fuel -/

theorem mw_align_spec (head window_length time_step : ℚ)
    (hs : 0 < time_step) :
    ∀ (n : ℕ) (b : ℚ), n = align_fuel head window_length time_step b →
      mw_align head window_length time_step n b = b + n * time_step ∧
      head ≤ b + n * time_step + window_length ∧
      ∀ j : ℕ, j < n → b + j * time_step + window_length < head := by
  intro n
  induction n with
  | zero =>
    intro b hb
    have h0 : (⌈(head - (b + window_length)) / time_step⌉ : ℤ) ≤ 0 := by
      unfold align_fuel at hb
      omega
    have h1 : (head - (b + window_length)) / time_step ≤ (0 : ℚ) := by
      exact_mod_cast Int.ceil_le.mp h0
    have h2 : head - (b + window_length) ≤ 0 := by
      have := (div_le_iff₀ hs).mp h1
      linarith
    refine ⟨by rw [mw_align]; push_cast; ring, by push_cast; linarith, ?_⟩
    intro j hj
    omega
  | succ n ih =>
    intro b hb
    have hm : (⌈(head - (b + window_length)) / time_step⌉ : ℤ) = (n : ℤ) + 1 := by
      unfold align_fuel at hb
      omega
    have hpos : (0 : ℚ) < (head - (b + window_length)) / time_step := by
      have : (0 : ℤ) < ⌈(head - (b + window_length)) / time_step⌉ := by omega
      exact Int.ceil_pos.mp this
    have hcond : b + window_length < head := by
      have := (lt_div_iff₀ hs).mp hpos
      linarith
    have hs' : time_step ≠ 0 := ne_of_gt hs
    have hshift : (head - (b + time_step + window_length)) / time_step =
        (head - (b + window_length)) / time_step - 1 := by
      field_simp
      ring
    have hnext : n = align_fuel head window_length time_step (b + time_step) := by
      unfold align_fuel
      rw [hshift, Int.ceil_sub_one, hm]
      omega
    obtain ⟨heq, hge, hlt⟩ := ih (b + time_step) hnext
    have hrun : mw_align head window_length time_step (n + 1) b =
        mw_align head window_length time_step n (b + time_step) := by
      rw [mw_align, if_pos hcond]
    refine ⟨?_, ?_, ?_⟩
    · rw [hrun, heq]
      push_cast
      ring
    · have : b + time_step + (n : ℚ) * time_step + window_length =
          b + ((n : ℚ) + 1) * time_step + window_length := by ring
      push_cast
      linarith [this ▸ hge]
    · intro j hj
      cases j with
      | zero => simpa using hcond
      | succ j' =>
        have hj' : j' < n := by omega
        have := hlt j' hj'
        push_cast
        push_cast at this
        linarith

theorem aligned_origin_spec (time : List ℚ) (window_length time_step : ℚ)
    (time0 : Option ℚ) (hs : 0 < time_step) :
    aligned_origin time window_length time_step time0 =
      time0.getD (time.headD 0) +
        (align_fuel (time.headD 0) window_length time_step
          (time0.getD (time.headD 0)) : ℚ) * time_step ∧
    time.headD 0 ≤
      aligned_origin time window_length time_step time0 + window_length ∧
    ∀ j : ℕ, j < align_fuel (time.headD 0) window_length time_step
        (time0.getD (time.headD 0)) →
      time0.getD (time.headD 0) + j * time_step + window_length <
        time.headD 0 := by
  obtain ⟨heq, hge, hlt⟩ := mw_align_spec (time.headD 0) window_length
    time_step hs (align_fuel (time.headD 0) window_length time_step
      (time0.getD (time.headD 0))) (time0.getD (time.headD 0)) rfl
  refine ⟨heq, ?_, hlt⟩
  rw [show aligned_origin time window_length time_step time0 =
    mw_align (time.headD 0) window_length time_step
      (align_fuel (time.headD 0) window_length time_step
        (time0.getD (time.headD 0))) (time0.getD (time.headD 0)) from rfl, heq]
  linarith

/-! ## C5: origin resolution and fast-forward alignment -/

/-- C5: when `time0` is unset, `moving_window` uses `time[0]` as origin
(first conjunct: the run with `time0 = None` equals the run with
`time0 = time[0]`); the alignment advances the interval by whole steps
(`aligned_origin = t0 + A * time_step`), every window skipped by the
fast-forward has end time strictly below `time[0]` (last conjunct), and the
first window actually tested has end time `≥ time[0]` (second conjunct). -/
theorem moving_window_origin_alignment {R : Type} (time signal : List ℚ)
    (window_length time_step : ℚ) (f : AggFunction R) (time0 : Option ℚ)
    (hs : 0 < time_step) :
    moving_window time signal window_length time_step f none =
      moving_window time signal window_length time_step f
        (some (time.headD 0)) ∧
    aligned_origin time window_length time_step time0 =
      time0.getD (time.headD 0) +
        (align_fuel (time.headD 0) window_length time_step
          (time0.getD (time.headD 0)) : ℚ) * time_step ∧
    time.headD 0 ≤
      aligned_origin time window_length time_step time0 + window_length ∧
    ∀ j : ℕ, j < align_fuel (time.headD 0) window_length time_step
        (time0.getD (time.headD 0)) →
      time0.getD (time.headD 0) + j * time_step + window_length <
        time.headD 0 := by
  exact ⟨rfl, aligned_origin_spec time window_length time_step time0 hs⟩

/-- Witness for `moving_window_origin_alignment`: Scenario B of the spec.
With `origin = -100`, `length = 1`, `step = 1` over the series beginning at
`time[0] = 0`, the fast-forward performs 99 advances and the first tested
window is `[-1, 0)`, whose end time `0` has reached `time[0]`. -/
theorem moving_window_origin_alignment_witness :
    aligned_origin [0, 1, 2, 3, 10, 11, 12] 1 1 (some (-100)) = -1 ∧
    (([0, 1, 2, 3, 10, 11, 12] : List ℚ).headD 0 ≤
      aligned_origin [0, 1, 2, 3, 10, 11, 12] 1 1 (some (-100)) + 1) := by
  have h := moving_window_origin_alignment (R := ℚ) [0, 1, 2, 3, 10, 11, 12]
    [1, 2, 3, 4, 5, 6, 7] 1 1 (AggFunction.signalOnly fun l => some l.sum)
    (some (-100)) (by norm_num)
  refine ⟨?_, h.2.2.1⟩
  have hA : align_fuel (([0, 1, 2, 3, 10, 11, 12] : List ℚ).headD 0) 1 1
      ((some (-100) : Option ℚ).getD (([0, 1, 2, 3, 10, 11, 12] :
        List ℚ).headD 0)) = 99 := by
    with_unfolding_all decide
  have h2 := h.2.1
  rw [hA] at h2
  rw [h2]
  norm_num

/-! ## Exactness of the main-loop fuel, iteration structure -/

theorem loop_fuel_succ (last window_length time_step b : ℚ)
    (hs : 0 < time_step) (hcond : b + window_length < last) :
    loop_fuel last window_length time_step (b + time_step) + 1 =
      loop_fuel last window_length time_step b := by
  unfold loop_fuel
  have hs' : time_step ≠ 0 := ne_of_gt hs
  have hshift : (last - (b + time_step + window_length)) / time_step =
      (last - (b + window_length)) / time_step - 1 := by
    field_simp
    ring
  rw [hshift, Int.ceil_sub_one]
  have hpos : 0 < ⌈(last - (b + window_length)) / time_step⌉ :=
    Int.ceil_pos.mpr (div_pos (by linarith) hs)
  omega

theorem loop_fuel_cond (last window_length time_step b : ℚ)
    (hs : 0 < time_step)
    (hcond : ¬b + window_length < last) :
    loop_fuel last window_length time_step b = 1 := by
  unfold loop_fuel
  have h1 : (last - (b + window_length)) / time_step ≤ 0 := by
    apply div_nonpos_of_nonpos_of_nonneg (by linarith) (le_of_lt hs)
  have h2 : ⌈(last - (b + window_length)) / time_step⌉ ≤ 0 := by
    exact_mod_cast Int.ceil_le.mpr (by exact_mod_cast h1)
  omega

theorem mw_loop_fuel_invariance {R : Type} (time signal : List ℚ)
    (f : AggFunction R) (window_length time_step : ℚ) (hs : 0 < time_step) :
    ∀ (fuel : ℕ) (b : ℚ),
      loop_fuel (time.getLastD 0) window_length time_step b ≤ fuel →
      mw_loop time signal f window_length time_step fuel b =
        mw_loop time signal f window_length time_step
          (loop_fuel (time.getLastD 0) window_length time_step b) b := by
  intro fuel
  induction fuel with
  | zero =>
    intro b hb
    unfold loop_fuel at hb
    omega
  | succ n ih =>
    intro b hb
    by_cases hcond : b + window_length < time.getLastD 0
    · have hN := loop_fuel_succ (time.getLastD 0) window_length time_step b
        hs hcond
      have hb' : loop_fuel (time.getLastD 0) window_length time_step
          (b + time_step) ≤ n := by omega
      have step1 : mw_loop time signal f window_length time_step (n + 1) b =
          window_step time signal f b (b + window_length) ++
            mw_loop time signal f window_length time_step n
              (b + time_step) := by
        rw [mw_loop, if_pos hcond]
      rw [step1, ih (b + time_step) hb', ← hN, mw_loop, if_pos hcond]
    · rw [loop_fuel_cond (time.getLastD 0) window_length time_step b hs hcond]
      rw [mw_loop, if_neg hcond, mw_loop, if_neg hcond]

theorem mw_iterations_spec (last window_length time_step : ℚ)
    (hs : 0 < time_step) :
    ∀ (n : ℕ) (b : ℚ), n + 1 = loop_fuel last window_length time_step b →
      mw_iterations last window_length time_step (n + 1) b =
        (List.range (n + 1)).map (fun k : ℕ => b + (k : ℚ) * time_step) ∧
      (∀ k : ℕ, k < n → b + k * time_step + window_length < last) ∧
      last ≤ b + n * time_step + window_length := by
  intro n
  induction n with
  | zero =>
    intro b hb
    have h0 : (⌈(last - (b + window_length)) / time_step⌉ : ℤ) ≤ 0 := by
      unfold loop_fuel at hb
      omega
    have h1 : (last - (b + window_length)) / time_step ≤ (0 : ℚ) := by
      exact_mod_cast Int.ceil_le.mp h0
    have h2 : last - (b + window_length) ≤ 0 := by
      have := (div_le_iff₀ hs).mp h1
      linarith
    have hcond : ¬b + window_length < last := by linarith
    refine ⟨?_, by omega, by push_cast; linarith⟩
    rw [mw_iterations, if_neg hcond]
    simp [List.range_succ]
  | succ n ih =>
    intro b hb
    have hm : (⌈(last - (b + window_length)) / time_step⌉ : ℤ) = (n : ℤ) + 1 := by
      unfold loop_fuel at hb
      omega
    have hpos : (0 : ℚ) < (last - (b + window_length)) / time_step := by
      have : (0 : ℤ) < ⌈(last - (b + window_length)) / time_step⌉ := by omega
      exact Int.ceil_pos.mp this
    have hcond : b + window_length < last := by
      have := (lt_div_iff₀ hs).mp hpos
      linarith
    have hnext : n + 1 = loop_fuel last window_length time_step
        (b + time_step) := by
      have := loop_fuel_succ last window_length time_step b hs hcond
      omega
    obtain ⟨heq, hforall, hlast⟩ := ih (b + time_step) hnext
    refine ⟨?_, ?_, ?_⟩
    · rw [mw_iterations, if_pos hcond, heq]
      conv_rhs => rw [List.range_succ_eq_map, List.map_cons, List.map_map]
      congr 1
      · norm_num
      · refine List.map_congr_left fun k _ => ?_
        simp only [Function.comp_apply]
        push_cast
        ring
    · intro k hk
      cases k with
      | zero => simpa using hcond
      | succ k' =>
        have := hforall k' (by omega)
        push_cast at this ⊢
        linarith
    · push_cast at hlast ⊢
      linarith

theorem mw_loop_length_le_iterations {R : Type} (time signal : List ℚ)
    (f : AggFunction R) (window_length time_step : ℚ) :
    ∀ (fuel : ℕ) (b : ℚ),
      (mw_loop time signal f window_length time_step fuel b).length ≤
        (mw_iterations (time.getLastD 0) window_length time_step fuel b).length := by
  intro fuel
  induction fuel with
  | zero => intro b; simp [mw_loop, mw_iterations]
  | succ n ih =>
    intro b
    rw [mw_loop, mw_iterations]
    by_cases hcond : b + window_length < time.getLastD 0
    · rw [if_pos hcond, if_pos hcond]
      have h1 := window_step_length_le time signal f b (b + window_length)
      have h2 := ih (b + time_step)
      simp only [List.length_append, List.length_cons]
      omega
    · rw [if_neg hcond, if_neg hcond]
      have h1 := window_step_length_le time signal f b (b + window_length)
      simp only [List.length_append, List.length_cons]
      simp
      omega

/-! ## C4: termination and iteration bound -/

/-- C4: with positive length and step, `moving_window` terminates.  First
conjunct: any fuel at least `loop_fuel` computes the same output as
`moving_window` itself, i.e. the loop reaches its natural exit and the
result is the loop's fixed point.  The next three conjuncts: the tested
windows are exactly `b0, b0+step, ..., b0+K*step`; every window before the
final one has end time strictly below the last timestamp, and the final
window's end time has reached or passed it — so exactly one
test-and-maybe-emit cycle runs after the interval end reaches or passes the
last timestamp.  Last two conjuncts: the number of iterations is `K + 1`,
and the number of emitted descriptors is at most
`⌈(last − aligned_origin) / step⌉ + 1`. -/
theorem moving_window_termination_bound {R : Type} (time signal : List ℚ)
    (window_length time_step : ℚ) (f : AggFunction R) (time0 : Option ℚ)
    (hsorted : time.Pairwise (· ≤ ·)) (hlen : 1 ≤ time.length)
    (hL : 0 < window_length) (hs : 0 < time_step)
    (b0 : ℚ) (hb0 : b0 = aligned_origin time window_length time_step time0)
    (last : ℚ) (hlast : last = time.getLastD 0)
    (K : ℕ)
    (hK : K = (⌈(last - (b0 + window_length)) / time_step⌉).toNat) :
    (∀ fuel : ℕ, loop_fuel last window_length time_step b0 ≤ fuel →
      mw_loop time signal f window_length time_step fuel b0 =
        moving_window time signal window_length time_step f time0) ∧
    mw_iterations last window_length time_step
        (loop_fuel last window_length time_step b0) b0 =
      (List.range (K + 1)).map (fun k : ℕ => b0 + (k : ℚ) * time_step) ∧
    (∀ k : ℕ, k < K → b0 + k * time_step + window_length < last) ∧
    last ≤ b0 + K * time_step + window_length ∧
    (mw_iterations last window_length time_step
        (loop_fuel last window_length time_step b0) b0).length = K + 1 ∧
    (moving_window time signal window_length time_step f time0).length ≤
      (⌈(last - b0) / time_step⌉).toNat + 1 := by
  subst hb0 hlast hK
  have hfuel : (⌈(time.getLastD 0 -
      (aligned_origin time window_length time_step time0 + window_length)) /
        time_step⌉).toNat + 1 =
      loop_fuel (time.getLastD 0) window_length time_step
        (aligned_origin time window_length time_step time0) := rfl
  obtain ⟨hiter, hforall, hlast'⟩ := mw_iterations_spec (time.getLastD 0)
    window_length time_step hs _ _ hfuel
  refine ⟨?_, hiter, hforall, hlast', ?_, ?_⟩
  · intro fuel hf
    rw [mw_loop_fuel_invariance time signal f window_length time_step hs
      fuel _ hf]
    rfl
  · rw [← hfuel, hiter]
    simp
  · have h1 : (moving_window time signal window_length time_step f
        time0).length ≤
        (mw_iterations (time.getLastD 0) window_length time_step
          (loop_fuel (time.getLastD 0) window_length time_step
            (aligned_origin time window_length time_step time0))
          (aligned_origin time window_length time_step time0)).length :=
      mw_loop_length_le_iterations time signal f window_length time_step _ _
    have h2 : (mw_iterations (time.getLastD 0) window_length time_step
        (loop_fuel (time.getLastD 0) window_length time_step
          (aligned_origin time window_length time_step time0))
        (aligned_origin time window_length time_step time0)).length =
        (⌈(time.getLastD 0 -
          (aligned_origin time window_length time_step time0 +
            window_length)) / time_step⌉).toNat + 1 := by
      rw [← hfuel, hiter]
      simp
    have h3 : (⌈(time.getLastD 0 -
        (aligned_origin time window_length time_step time0 +
          window_length)) / time_step⌉).toNat ≤
        (⌈(time.getLastD 0 -
          aligned_origin time window_length time_step time0) /
            time_step⌉).toNat := by
      apply Int.toNat_le_toNat
      apply Int.ceil_le_ceil
      apply div_le_div_of_nonneg_right ?_ hs.le
      linarith
    omega

/-- Witness for `moving_window_termination_bound`: Scenario A
(`length = 3`, `step = 3`, `origin = 0` over `[0,1,2,3,10,11,12]`), where
the aligned origin is `0`, the last timestamp is `12`, and at most
`⌈(12 − 0)/3⌉ + 1 = 5` descriptors can be emitted. -/
theorem moving_window_termination_bound_witness :
    (moving_window [0, 1, 2, 3, 10, 11, 12] [1, 2, 3, 4, 5, 6, 7] 3 3
        (AggFunction.signalOnly fun l => some l.sum) (some 0)).length ≤
      (⌈((12 : ℚ) - 0) / 3⌉).toNat + 1 :=
  (moving_window_termination_bound [0, 1, 2, 3, 10, 11, 12]
    [1, 2, 3, 4, 5, 6, 7] 3 3 (AggFunction.signalOnly fun l => some l.sum)
    (some 0) (by decide) (by decide) (by norm_num) (by norm_num)
    0 (by with_unfolding_all decide) 12 (by with_unfolding_all decide)
    3 (by with_unfolding_all decide)).2.2.2.2.2

/-! ## C2: Scenario A, concrete run -/

/-- C2 counterexample: on Scenario A (timestamps `[0,1,2,3,10,11,12]`,
values `[1..7]`, length 3, step 3, origin 0, sum in the value-only shape)
the window `[12, 15)` is never tested: after the iteration for `[9, 12)`
the loop's advancement test `window_end_time < time[-1]` compares `12 < 12`
and stops, so no descriptor with begin time 12 (and result 21) exists and
only three descriptors are emitted, not five. -/
theorem moving_window_scenarioA_refuted :
    (⟨12, 15, 6, 6, some 21⟩ : WindowDescriptor ℚ) ∉
      moving_window [0, 1, 2, 3, 10, 11, 12] [1, 2, 3, 4, 5, 6, 7] 3 3
        (AggFunction.signalOnly fun l => some l.sum) (some 0) ∧
    (moving_window [0, 1, 2, 3, 10, 11, 12] [1, 2, 3, 4, 5, 6, 7] 3 3
        (AggFunction.signalOnly fun l => some l.sum) (some 0)).length = 3 := by
  with_unfolding_all decide

/-- C2 amended: the run emits exactly three descriptors — `[0,3)` with
indices `{0,1,2}`, `end_index` 2 and result `sum(values[0:2]) = 3`;
`[3,6)` with index `{3}`, `end_index` 3 and result 6; `[6,9)` skipped;
`[9,12)` with indices `{4,5}`, `end_index` 5 and result 15 — and the
sequence stops after `[9,12)`, whose end time 12 has reached the last
timestamp, so `[12,15)` is never tested and the sample at `t = 12` falls
in no window. -/
theorem moving_window_scenarioA :
    moving_window [0, 1, 2, 3, 10, 11, 12] [1, 2, 3, 4, 5, 6, 7] 3 3
        (AggFunction.signalOnly fun l => some l.sum) (some 0) =
      [⟨0, 3, 0, 2, some 3⟩, ⟨3, 6, 3, 3, some 6⟩,
        ⟨9, 12, 4, 5, some 15⟩] := by
  with_unfolding_all decide

/-! ## C3: per-descriptor invariants -/

theorem sorted_getD_mono {time : List ℚ} (hsorted : time.Pairwise (· ≤ ·))
    {i j : ℕ} (hij : i ≤ j) (hj : j < time.length) :
    time.getD i 0 ≤ time.getD j 0 := by
  rcases eq_or_lt_of_le hij with rfl | hlt
  · exact le_refl _
  · rw [List.getD_eq_getElem time 0 (lt_of_le_of_lt hij hj),
      List.getD_eq_getElem time 0 hj]
    exact List.pairwise_iff_getElem.mp hsorted i j
      (lt_of_le_of_lt hij hj) hj hlt

/-- C3: for a sorted, non-empty series and positive length/step, every
emitted descriptor has a non-empty index set (an iteration with an empty
index set emits nothing at all — first conjunct and the `≠ []` conjunct),
satisfies `begin_index ≤ end_index`, and every position `i` in
`[begin_index, end_index]` has `begin_time ≤ time[i] < end_time`. -/
theorem moving_window_descriptor_invariants {R : Type}
    (time signal : List ℚ) (window_length time_step : ℚ)
    (f : AggFunction R) (time0 : Option ℚ)
    (hsorted : time.Pairwise (· ≤ ·)) (hlen : 1 ≤ time.length)
    (hL : 0 < window_length) (hs : 0 < time_step) :
    (∀ b e : ℚ, window_indices time b e = [] →
      window_step time signal f b e = []) ∧
    ∀ d ∈ moving_window time signal window_length time_step f time0,
      window_indices time d.window_begin_time d.window_end_time ≠ [] ∧
      d.window_begin_index ≤ d.window_end_index ∧
      ∀ i : ℕ, d.window_begin_index ≤ i → i ≤ d.window_end_index →
        d.window_begin_time ≤ time.getD i 0 ∧
          time.getD i 0 < d.window_end_time := by
  refine ⟨fun b e h => window_step_of_empty time signal f b e h, ?_⟩
  intro d hd
  obtain ⟨k, hk⟩ := mw_loop_mem _ _ d hd
  obtain ⟨hne, hb, he, hbi, hei, -⟩ := window_step_mem hk
  have hp := window_indices_pairwise time
    (aligned_origin time window_length time_step time0 + k * time_step)
    (aligned_origin time window_length time_step time0 + k * time_step +
      window_length)
  have hbimem := headD_mem_of_ne_nil hne
  have heimem := getLastD_mem_of_ne_nil hne
  obtain ⟨hbilen, hbile, hbilt⟩ := mem_window_indices.mp hbimem
  obtain ⟨heilen, heile, heilt⟩ := mem_window_indices.mp heimem
  refine ⟨by rw [hb, he]; exact hne, ?_, ?_⟩
  · rw [hbi, hei]
    exact sorted_headD_le hp heimem
  · intro i hi1 hi2
    rw [hbi] at hi1
    rw [hei] at hi2
    have hilen : i < time.length := lt_of_le_of_lt hi2 heilen
    constructor
    · rw [hb]
      exact le_trans hbile (sorted_getD_mono hsorted hi1 hilen)
    · rw [he]
      exact lt_of_le_of_lt (sorted_getD_mono hsorted hi2 heilen) heilt

/-- Witness for `moving_window_descriptor_invariants`: the descriptor
`⟨0, 3, 0, 2, some 3⟩` emitted in Scenario A has a non-empty index set and
`begin_index 0 ≤ end_index 2`. -/
theorem moving_window_descriptor_invariants_witness :
    window_indices [0, 1, 2, 3, 10, 11, 12] 0 3 ≠ [] ∧ (0 : ℕ) ≤ 2 := by
  have h := (moving_window_descriptor_invariants [0, 1, 2, 3, 10, 11, 12]
    [1, 2, 3, 4, 5, 6, 7] 3 3 (AggFunction.signalOnly fun l => some l.sum)
    (some 0) (by decide) (by decide) (by norm_num) (by norm_num)).2
    ⟨0, 3, 0, 2, some 3⟩ (by with_unfolding_all decide)
  exact ⟨h.1, h.2.1⟩

/-! ## C9: the prefix excludes the element at `end_index` -/

/-- C9: the slices handed to the aggregation function are
`time[0:end_index]` and `signal[0:end_index]` (`List.take end_index`),
which exclude the element at position `end_index` (second conjunct: the
time slice has exactly `end_index` elements); consequently, when
`end_index = 0` the function is invoked on empty slices even though the
window contains a sample and a descriptor is emitted for it. -/
theorem moving_window_end_index_excluded {R : Type}
    (time signal : List ℚ) (window_length time_step : ℚ)
    (f : AggFunction R) (time0 : Option ℚ) (d : WindowDescriptor R)
    (hd : d ∈ moving_window time signal window_length time_step f time0) :
    d.function_output =
      f.call (time.take d.window_end_index)
        (signal.take d.window_end_index) ∧
    (time.take d.window_end_index).length = d.window_end_index ∧
    (d.window_end_index = 0 → d.function_output = f.call [] []) := by
  obtain ⟨k, hk⟩ := mw_loop_mem _ _ d hd
  obtain ⟨hne, -, -, -, hei, hout⟩ := window_step_mem hk
  have heimem := getLastD_mem_of_ne_nil hne
  obtain ⟨heilen, -, -⟩ := mem_window_indices.mp heimem
  refine ⟨hout, ?_, ?_⟩
  · rw [hei]
    simp only [List.length_take]
    omega
  · intro h0
    rw [hout, h0]
    simp

/-- Witness for `moving_window_end_index_excluded`: over `time = [0, 1]`,
`signal = [5, 7]` with unit windows, the first window `[0, 1)` contains
only the sample at position 0, so `end_index = 0` and the emitted
descriptor's result is the function applied to two empty slices. -/
theorem moving_window_end_index_excluded_witness :
    (⟨0, 1, 0, 0, some (0 : ℚ)⟩ : WindowDescriptor ℚ).function_output =
      (AggFunction.withTime fun t s => some (t.sum + s.sum)).call [] [] :=
  (moving_window_end_index_excluded [0, 1] [5, 7] 1 1
    (AggFunction.withTime fun t s => some (t.sum + s.sum)) none
    ⟨0, 1, 0, 0, some 0⟩ (by with_unfolding_all decide)).2.2 rfl

/-! ## C6: aggregation errors are contained -/

/-- The non-result fields of a descriptor: begin/end times and
begin/end indices. -/
def descriptor_shape {R : Type} (d : WindowDescriptor R) : ℚ × ℚ × ℕ × ℕ :=
  (d.window_begin_time, d.window_end_time, d.window_begin_index,
    d.window_end_index)

theorem window_step_shape {R S : Type} (time signal : List ℚ)
    (f : AggFunction R) (g : AggFunction S) (b e : ℚ) :
    (window_step time signal f b e).map descriptor_shape =
      (window_step time signal g b e).map descriptor_shape := by
  unfold window_step
  by_cases h : (window_indices time b e).isEmpty <;>
    simp [h, descriptor_shape]

theorem mw_loop_shape {R S : Type} (time signal : List ℚ)
    (f : AggFunction R) (g : AggFunction S)
    (window_length time_step : ℚ) :
    ∀ (fuel : ℕ) (b : ℚ),
      (mw_loop time signal f window_length time_step fuel b).map
          descriptor_shape =
        (mw_loop time signal g window_length time_step fuel b).map
          descriptor_shape := by
  intro fuel
  induction fuel with
  | zero => intro b; rfl
  | succ n ih =>
    intro b
    rw [mw_loop, mw_loop, List.map_append, List.map_append,
      window_step_shape time signal f g]
    by_cases hcond : b + window_length < time.getLastD 0
    · rw [if_pos hcond, if_pos hcond, ih]
    · rw [if_neg hcond, if_neg hcond]
      simp

/-- C6: any error raised by the aggregation function (modelled by the call
returning `none`) is caught locally and never propagated.  First conjunct:
for ANY two aggregation functions `f` and `g` — in particular one that
raises on every window and one that never raises — the emitted descriptor
sequences agree on every field except the result, so a failing window still
emits its descriptor and all later windows are processed normally.  Second
conjunct: when the call for a window raises, that window's descriptor
carries the sentinel `none`. -/
theorem moving_window_error_containment {R S : Type}
    (time signal : List ℚ) (window_length time_step : ℚ)
    (f : AggFunction R) (g : AggFunction S) (time0 : Option ℚ) :
    (moving_window time signal window_length time_step f time0).map
        descriptor_shape =
      (moving_window time signal window_length time_step g time0).map
        descriptor_shape ∧
    ∀ d ∈ moving_window time signal window_length time_step f time0,
      f.call (time.take d.window_end_index)
          (signal.take d.window_end_index) = none →
        d.function_output = none := by
  constructor
  · exact mw_loop_shape time signal f g window_length time_step _ _
  · intro d hd hnone
    obtain ⟨k, hk⟩ := mw_loop_mem _ _ d hd
    obtain ⟨-, -, -, -, -, hout⟩ := window_step_mem hk
    rw [hout, hnone]

/-- Witness for `moving_window_error_containment`: over Scenario A's series,
the always-raising function emits the same windows (same times and indices)
as the always-succeeding sum, and its `[0,3)` descriptor carries the
sentinel `none`. -/
theorem moving_window_error_containment_witness :
    (moving_window [0, 1, 2, 3, 10, 11, 12] [1, 2, 3, 4, 5, 6, 7] 3 3
        (AggFunction.signalOnly fun _ => (none : Option ℚ)) (some 0)).map
        descriptor_shape =
      (moving_window [0, 1, 2, 3, 10, 11, 12] [1, 2, 3, 4, 5, 6, 7] 3 3
        (AggFunction.signalOnly fun l => some l.sum) (some 0)).map
        descriptor_shape ∧
    (⟨0, 3, 0, 2, none⟩ : WindowDescriptor ℚ).function_output = none := by
  refine ⟨(moving_window_error_containment [0, 1, 2, 3, 10, 11, 12]
    [1, 2, 3, 4, 5, 6, 7] 3 3 (AggFunction.signalOnly fun _ => none)
    (AggFunction.signalOnly fun l => some l.sum) (some 0)).1, ?_⟩
  exact (moving_window_error_containment [0, 1, 2, 3, 10, 11, 12]
    [1, 2, 3, 4, 5, 6, 7] 3 3
    (AggFunction.signalOnly fun _ => (none : Option ℚ))
    (AggFunction.signalOnly fun l => some l.sum) (some 0)).2
    ⟨0, 3, 0, 2, none⟩ (by with_unfolding_all decide) rfl

/-! ## C10: ordering of successive descriptors -/

theorem window_indices_mono {time : List ℚ}
    (hsorted : time.Pairwise (· ≤ ·)) {b b' e e' : ℚ}
    (hb : b ≤ b') (he : e ≤ e')
    (hne : window_indices time b e ≠ [])
    (hne' : window_indices time b' e' ≠ []) :
    (window_indices time b e).headD 0 ≤
      (window_indices time b' e').headD 0 ∧
    (window_indices time b e).getLastD 0 ≤
      (window_indices time b' e').getLastD 0 := by
  have hp := window_indices_pairwise time b e
  have hp' := window_indices_pairwise time b' e'
  have hi0 := headD_mem_of_ne_nil hne
  have hi0' := headD_mem_of_ne_nil hne'
  have he0 := getLastD_mem_of_ne_nil hne
  have he0' := getLastD_mem_of_ne_nil hne'
  obtain ⟨hi0len, hi0le, hi0lt⟩ := mem_window_indices.mp hi0
  obtain ⟨hi0len', hi0le', hi0lt'⟩ := mem_window_indices.mp hi0'
  obtain ⟨he0len, he0le, he0lt⟩ := mem_window_indices.mp he0
  obtain ⟨he0len', he0le', he0lt'⟩ := mem_window_indices.mp he0'
  constructor
  · by_contra hcon
    push_neg at hcon
    have hmono : time.getD ((window_indices time b' e').headD 0) 0 ≤
        time.getD ((window_indices time b e).headD 0) 0 :=
      sorted_getD_mono hsorted (le_of_lt hcon) hi0len
    have hmem : (window_indices time b' e').headD 0 ∈
        window_indices time b e :=
      mem_window_indices.mpr ⟨lt_trans hcon hi0len,
        le_trans hb hi0le', lt_of_le_of_lt hmono hi0lt⟩
    exact absurd (sorted_headD_le hp hmem) (not_le.mpr hcon)
  · by_contra hcon
    push_neg at hcon
    have hmono : time.getD ((window_indices time b' e').getLastD 0) 0 ≤
        time.getD ((window_indices time b e).getLastD 0) 0 :=
      sorted_getD_mono hsorted (le_of_lt hcon) he0len
    have hmem : (window_indices time b e).getLastD 0 ∈
        window_indices time b' e' :=
      mem_window_indices.mpr ⟨he0len,
        le_trans he0le' hmono, lt_of_lt_of_le he0lt he⟩
    exact absurd (sorted_le_getLastD hp' hmem) (not_le.mpr hcon)

/-- Ordering relation between two successive emitted descriptors: the
second one's begin time is the first one's advanced by a positive whole
number of steps (hence strictly larger when the step is positive), and
both indices are non-decreasing. -/
def descriptor_step {R : Type} (time_step : ℚ)
    (d1 d2 : WindowDescriptor R) : Prop :=
  (∃ k : ℕ, 0 < k ∧
    d2.window_begin_time = d1.window_begin_time + (k : ℚ) * time_step) ∧
  d1.window_begin_time < d2.window_begin_time ∧
  d1.window_begin_index ≤ d2.window_begin_index ∧
  d1.window_end_index ≤ d2.window_end_index

theorem mw_loop_chain {R : Type} (time signal : List ℚ)
    (f : AggFunction R) (window_length time_step : ℚ)
    (hsorted : time.Pairwise (· ≤ ·)) (hs : 0 < time_step) :
    ∀ (fuel : ℕ) (b : ℚ),
      List.Chain' (descriptor_step time_step)
        (mw_loop time signal f window_length time_step fuel b) := by
  intro fuel
  induction fuel with
  | zero => intro b; simp [mw_loop]
  | succ n ih =>
    intro b
    rw [mw_loop]
    by_cases hemp : (window_indices time b (b + window_length)).isEmpty
    · rw [window_step_of_empty time signal f b (b + window_length)
        (List.isEmpty_iff.mp hemp)]
      by_cases hcond : b + window_length < time.getLastD 0
      · rw [if_pos hcond]
        simpa using ih (b + time_step)
      · rw [if_neg hcond]
        simp
    · by_cases hcond : b + window_length < time.getLastD 0
      · rw [if_pos hcond]
        have hstep : window_step time signal f b (b + window_length) =
            [⟨b, b + window_length,
              (window_indices time b (b + window_length)).headD 0,
              (window_indices time b (b + window_length)).getLastD 0,
              f.call
                (time.take
                  ((window_indices time b (b + window_length)).getLastD 0))
                (signal.take
                  ((window_indices time b (b + window_length)).getLastD 0))⟩]
            := by
          unfold window_step
          rw [if_neg (by simpa using hemp)]
        rw [hstep, List.singleton_append]
        rw [List.chain'_cons']
        refine ⟨?_, ih (b + time_step)⟩
        intro y hy
        have hymem : y ∈ mw_loop time signal f window_length time_step n
            (b + time_step) := List.mem_of_mem_head? hy
        obtain ⟨k, hk⟩ := mw_loop_mem _ _ y hymem
        obtain ⟨hne', hyb, hye, hybi, hyei, -⟩ := window_step_mem hk
        have hble : b ≤ b + time_step + (k : ℚ) * time_step := by
          have : (0 : ℚ) ≤ (k : ℚ) := Nat.cast_nonneg k
          nlinarith
        have hmono := window_indices_mono hsorted hble
          (by linarith : b + window_length ≤
            b + time_step + (k : ℚ) * time_step + window_length)
          (by simpa using hemp) hne'
        refine ⟨⟨k + 1, by omega, ?_⟩, ?_, ?_, ?_⟩
        · rw [hyb]
          push_cast
          ring
        · rw [hyb]
          have : (0 : ℚ) ≤ (k : ℚ) := Nat.cast_nonneg k
          nlinarith
        · rw [hybi]
          exact hmono.1
        · rw [hyei]
          exact hmono.2
      · rw [if_neg hcond]
        have := window_step_length_le time signal f b (b + window_length)
        match hstep : window_step time signal f b (b + window_length) with
        | [] => simp
        | [d] => simp
        | d1 :: d2 :: rest =>
          rw [hstep] at this
          simp at this

/-- C10: for a sorted series and positive step, successive emitted
descriptors are ordered: each one's begin time exceeds the previous one's
by a positive whole multiple of the step (hence begin times are strictly
increasing), and begin/end indices are non-decreasing across successive
descriptors (`List.Chain'` over `descriptor_step`); moreover every
descriptor satisfies `end_time = begin_time + window_length`, so the window
width is always the window length. -/
theorem moving_window_monotone {R : Type} (time signal : List ℚ)
    (window_length time_step : ℚ) (f : AggFunction R) (time0 : Option ℚ)
    (hsorted : time.Pairwise (· ≤ ·)) (hlen : 1 ≤ time.length)
    (hs : 0 < time_step) :
    List.Chain' (descriptor_step time_step)
      (moving_window time signal window_length time_step f time0) ∧
    ∀ d ∈ moving_window time signal window_length time_step f time0,
      d.window_end_time = d.window_begin_time + window_length := by
  constructor
  · exact mw_loop_chain time signal f window_length time_step hsorted hs _ _
  · intro d hd
    obtain ⟨k, hk⟩ := mw_loop_mem _ _ d hd
    obtain ⟨-, hb, he, -, -, -⟩ := window_step_mem hk
    rw [he, hb]

/-- Witness for `moving_window_monotone`: in Scenario A the first two
emitted descriptors `⟨0,3,0,2,_⟩` and `⟨3,6,3,3,_⟩` are one positive step
apart with non-decreasing indices, and the `[9,12)` descriptor's width is
the window length 3. -/
theorem moving_window_monotone_witness :
    descriptor_step 3 (⟨0, 3, 0, 2, some (3 : ℚ)⟩ : WindowDescriptor ℚ)
      ⟨3, 6, 3, 3, some 6⟩ ∧
    (⟨9, 12, 4, 5, some (15 : ℚ)⟩ : WindowDescriptor ℚ).window_end_time =
      (⟨9, 12, 4, 5, some (15 : ℚ)⟩ :
        WindowDescriptor ℚ).window_begin_time + 3 := by
  have h := moving_window_monotone [0, 1, 2, 3, 10, 11, 12]
    [1, 2, 3, 4, 5, 6, 7] 3 3 (AggFunction.signalOnly fun l => some l.sum)
    (some 0) (by decide) (by decide) (by norm_num)
  have heq : moving_window [0, 1, 2, 3, 10, 11, 12] [1, 2, 3, 4, 5, 6, 7] 3 3
      (AggFunction.signalOnly fun l => some l.sum) (some 0) =
      [⟨0, 3, 0, 2, some 3⟩, ⟨3, 6, 3, 3, some 6⟩,
        ⟨9, 12, 4, 5, some 15⟩] := by
    with_unfolding_all decide
  have h1 := h.1
  rw [heq] at h1
  refine ⟨(List.chain'_cons.mp h1).1, ?_⟩
  exact h.2 ⟨9, 12, 4, 5, some 15⟩ (by rw [heq]; simp)

/-! ## `settings.py`: `Settings.load` -/

/-- Outcome of resolving and reading the YAML configuration file, the I/O
boundary of `Settings.load` (`settings.py`, lines 116-128 and 191-198):
the `open` call raises `FileNotFoundError`, `yaml.load` raises a
`yaml.YAMLError`, or a document is parsed.  A parsed document is a mapping
from group names to groups of option-name/value pairs; the Python falsy
check `if not doc` (`None` or `{}`) corresponds to the empty list. -/
inductive YamlSource (V : Type) where
  | fileNotFound
  | malformed
  | parsed (doc : List (String × List (String × V)))
deriving DecidableEq

/-- The distinct `SettingsError` raise sites of `Settings.load` and
`Settings.read_configuration_file` (`settings.py`, lines 124, 196, 203,
214, 222). -/
inductive SettingsErrorKind where
  | fileNotFound
  | malformedDocument
  | emptyDocument
  | groupNotDefined
  | emptyGroup
deriving Repr, DecidableEq

/-- Result of a successful `Settings.load`: the whole document when no
group is requested (`group_name in (None, "")`), otherwise the requested
group's option-name-to-value mapping. -/
inductive LoadResult (V : Type) where
  | wholeDocument (doc : List (String × List (String × V)))
  | group (settings : List (String × V))
deriving DecidableEq

/-- `Settings.load(group_name, ...)` (`settings.py`, lines 135-228), with
the file system and YAML parser abstracted to the `YamlSource` input:
`FileNotFoundError` is caught and re-raised as a `SettingsError`, a YAML
parse error is re-raised as a `SettingsError` by
`read_configuration_file`, an empty (falsy) document is an error, a group
name of `None` or `""` returns the whole document, a missing group or an
empty (falsy) group is an error, otherwise the group's mapping is
returned. -/
def Settings.load {V : Type} (group_name : Option String)
    (src : YamlSource V) : Except SettingsErrorKind (LoadResult V) :=
  match src with
  | .fileNotFound => .error .fileNotFound
  | .malformed => .error .malformedDocument
  | .parsed doc =>
    if doc.isEmpty then .error .emptyDocument
    else
      match group_name with
      | none => .ok (.wholeDocument doc)
      | some g =>
        if g = "" then .ok (.wholeDocument doc)
        else
          match doc.lookup g with
          | none => .error .groupNotDefined
          | some settings =>
            if settings.isEmpty then .error .emptyGroup
            else .ok (.group settings)

/-- C7 counterexample: the claim lists the raise cases of `Settings.load`
as exactly {file not found, empty document, group not defined, group
empty}, but a file that exists and fails to parse (`yaml.YAMLError`,
re-raised at `settings.py` line 124) is a fifth, distinct case in which a
`SettingsError` is also raised: none of the four listed conditions holds
for the `malformed` input, yet `load` returns an error. -/
theorem settings_load_malformed_refutes :
    Settings.load (V := ℚ) (some "Power Duration Curve")
        YamlSource.malformed =
      Except.error SettingsErrorKind.malformedDocument :=
  rfl

/-- C7 amended: for a requested (non-empty) group name, `Settings.load`
raises a `SettingsError` in exactly these cases — the file is not found,
the document fails to parse, the loaded document is empty, the group is
not defined, or the group is defined but empty — and otherwise returns
the group's option-name-to-value mapping. -/
theorem settings_load_error_cases {V : Type} (g : String) (hg : g ≠ "")
    (src : YamlSource V) :
    ((∃ e, Settings.load (some g) src = Except.error e) ↔
      (src = YamlSource.fileNotFound ∨ src = YamlSource.malformed ∨
        (∃ doc, src = YamlSource.parsed doc ∧ doc = []) ∨
        (∃ doc, src = YamlSource.parsed doc ∧ doc ≠ [] ∧
          doc.lookup g = none) ∨
        (∃ doc l, src = YamlSource.parsed doc ∧ doc.lookup g = some l ∧
          l = []))) ∧
    ∀ doc l, src = YamlSource.parsed doc → doc ≠ [] →
      doc.lookup g = some l → l ≠ [] →
      Settings.load (some g) src = Except.ok (LoadResult.group l) := by
  cases src with
  | fileNotFound =>
    refine ⟨⟨fun _ => Or.inl rfl, fun _ => ⟨.fileNotFound, rfl⟩⟩, ?_⟩
    intro doc l h
    cases h
  | malformed =>
    refine ⟨⟨fun _ => Or.inr (Or.inl rfl), fun _ =>
      ⟨.malformedDocument, rfl⟩⟩, ?_⟩
    intro doc l h
    cases h
  | parsed doc =>
    by_cases hdoc : doc.isEmpty
    · have hdoc' : doc = [] := List.isEmpty_iff.mp hdoc
      refine ⟨⟨fun _ => Or.inr (Or.inr (Or.inl ⟨doc, rfl, hdoc'⟩)),
        fun _ => ⟨.emptyDocument, by simp [Settings.load, hdoc]⟩⟩, ?_⟩
      intro doc' l h hne
      cases h
      exact absurd hdoc' hne
    · have hdoc' : doc ≠ [] := by simpa [List.isEmpty_iff] using hdoc
      cases hlook : doc.lookup g with
      | none =>
        refine ⟨⟨fun _ => Or.inr (Or.inr (Or.inr (Or.inl
          ⟨doc, rfl, hdoc', hlook⟩))), fun _ => ⟨.groupNotDefined,
            by simp [Settings.load, hdoc, hg, hlook]⟩⟩, ?_⟩
        intro doc' l h hne hlook'
        cases h
        rw [hlook] at hlook'
        cases hlook'
      | some l =>
        by_cases hl : l.isEmpty
        · have hl' : l = [] := List.isEmpty_iff.mp hl
          refine ⟨⟨fun _ => Or.inr (Or.inr (Or.inr (Or.inr
            ⟨doc, l, rfl, hlook, hl'⟩))), fun _ => ⟨.emptyGroup,
              by simp [Settings.load, hdoc, hg, hlook, hl]⟩⟩, ?_⟩
          intro doc' l' h hne hlook' hl''
          cases h
          rw [hlook] at hlook'
          cases hlook'
          exact absurd hl' hl''
        · refine ⟨⟨?_, ?_⟩, ?_⟩
          · intro ⟨e, he⟩
            rw [show Settings.load (some g) (YamlSource.parsed doc) =
              Except.ok (LoadResult.group l) by
                simp [Settings.load, hdoc, hg, hlook, hl]] at he
            cases he
          · rintro (h | h | ⟨doc', h, hd⟩ | ⟨doc', h, -, hlook'⟩ |
              ⟨doc', l', h, hlook', hl'⟩)
            · cases h
            · cases h
            · cases h; exact absurd hd hdoc'
            · cases h
              rw [hlook] at hlook'
              cases hlook'
            · cases h
              rw [hlook] at hlook'
              cases hlook'
              exact absurd hl' (by simpa [List.isEmpty_iff] using hl)
          · intro doc' l' h hne hlook' hl''
            cases h
            rw [hlook] at hlook'
            cases hlook'
            simp [Settings.load, hdoc, hg, hlook, hl]

/-- Witness for `settings_load_error_cases`: loading the group `"A"` from
the parsed document `{A: {x: 1}}` succeeds with the group's mapping. -/
theorem settings_load_error_cases_witness :
    Settings.load (some "A")
        (YamlSource.parsed [("A", [("x", (1 : ℚ))])]) =
      Except.ok (LoadResult.group [("x", (1 : ℚ))]) :=
  (settings_load_error_cases "A" (by decide)
    (YamlSource.parsed [("A", [("x", (1 : ℚ))])])).2
    [("A", [("x", (1 : ℚ))])] [("x", (1 : ℚ))] rfl (by decide) rfl
    (by decide)

/-! ## `data_extraction.py`: `get_data` -/

/-- One frame of a FIT file as seen by `get_data` (`data_extraction.py`,
lines 224-246): whether the frame is a `FitDataMessage`, its name, whether
it has the requested field, the field's value (`None` possible), and the
record's timestamp (`frame.get_value(DataType.TIME)`, in seconds, so that
the Python `(timepoint - time0).total_seconds()` is subtraction). -/
structure FitFrame where
  is_data_message : Bool
  name : String
  has_field : Bool
  value : Option ℚ
  timestamp : ℚ

/-- The loop state of `get_data`: the memorised first timestamp `time0`
and the two accumulated arrays. -/
structure ExtractionState where
  time0 : Option ℚ
  time : List ℚ
  data : List ℚ

/-- `time = np.array([]); data = np.array([]); time0 = None`
(`data_extraction.py`, lines 219-222). -/
def initial_extraction_state : ExtractionState := ⟨none, [], []⟩

/-- The body of the frame loop of `get_data` (`data_extraction.py`,
lines 226-246): only `record` data messages having the requested field are
considered; if the value is present, it is appended to `data`, `time0` is
set to this record's timestamp when still unset, and the elapsed time
`timestamp - time0` is appended to `time`. -/
def get_data_frame (s : ExtractionState) (frame : FitFrame) :
    ExtractionState :=
  if frame.is_data_message && frame.name == "record" && frame.has_field then
    match frame.value with
    | none => s
    | some v =>
      let t0 := s.time0.getD frame.timestamp
      { time0 := some t0,
        time := s.time ++ [frame.timestamp - t0],
        data := s.data ++ [v] }
  else s

/-- `get_data(fit_filename, data_type)` (`data_extraction.py`,
lines 207-248), with the FIT reader abstracted to the list of frames it
yields: returns the pair (timestamps, values). -/
def get_data (frames : List FitFrame) : List ℚ × List ℚ :=
  let s := frames.foldl get_data_frame initial_extraction_state
  (s.time, s.data)

theorem get_data_frame_preserves (s : ExtractionState) (frame : FitFrame)
    (h : s.time.length = s.data.length) :
    (get_data_frame s frame).time.length =
      (get_data_frame s frame).data.length := by
  unfold get_data_frame
  by_cases hq : (frame.is_data_message && frame.name == "record" &&
      frame.has_field) = true
  · rw [if_pos hq]
    cases frame.value with
    | none => exact h
    | some v => simp [h]
  · rw [if_neg hq]
    exact h

theorem get_data_foldl_preserves (frames : List FitFrame) :
    ∀ s : ExtractionState, s.time.length = s.data.length →
      (frames.foldl get_data_frame s).time.length =
        (frames.foldl get_data_frame s).data.length := by
  induction frames with
  | nil => intro s h; exact h
  | cons frame rest ih =>
    intro s h
    rw [List.foldl_cons]
    exact ih (get_data_frame s frame) (get_data_frame_preserves s frame h)

/-- C8: `get_data` returns two sequences of equal length: after every
prefix of the frame stream the two accumulated arrays have equal length
(second conjunct), so in particular the final timestamp and value arrays
do (first conjunct); a (timestamp, value) pair is appended only when the
record's value is present — a frame whose value is absent leaves the state
unchanged (third conjunct), and a qualifying record frame with a present
value appends exactly one element to each array (fourth conjunct). -/
theorem get_data_alignment (frames : List FitFrame) :
    (get_data frames).1.length = (get_data frames).2.length ∧
    (∀ n : ℕ, ((frames.take n).foldl get_data_frame
        initial_extraction_state).time.length =
      ((frames.take n).foldl get_data_frame
        initial_extraction_state).data.length) ∧
    (∀ (s : ExtractionState) (frame : FitFrame),
      frame.value = none → get_data_frame s frame = s) ∧
    (∀ (s : ExtractionState) (frame : FitFrame) (v : ℚ),
      frame.value = some v →
      (frame.is_data_message && frame.name == "record" &&
        frame.has_field) = true →
      (get_data_frame s frame).time.length = s.time.length + 1 ∧
      (get_data_frame s frame).data.length = s.data.length + 1) := by
  refine ⟨?_, ?_, ?_, ?_⟩
  · exact get_data_foldl_preserves frames initial_extraction_state rfl
  · intro n
    exact get_data_foldl_preserves (frames.take n)
      initial_extraction_state rfl
  · intro s frame hnone
    unfold get_data_frame
    rw [hnone]
    by_cases hq : (frame.is_data_message && frame.name == "record" &&
        frame.has_field) = true
    · rw [if_pos hq]
    · rw [if_neg hq]
  · intro s frame v hv hq
    unfold get_data_frame
    rw [if_pos hq, hv]
    simp

/-- Witness for `get_data_alignment`: two record frames, one carrying the
value 5 and one carrying no value, yield arrays of equal length (the pair
for the first frame only). -/
theorem get_data_alignment_witness :
    (get_data [⟨true, "record", true, some 5, 100⟩,
        ⟨true, "record", true, none, 101⟩]).1.length =
      (get_data [⟨true, "record", true, some 5, 100⟩,
        ⟨true, "record", true, none, 101⟩]).2.length :=
  (get_data_alignment [⟨true, "record", true, some 5, 100⟩,
    ⟨true, "record", true, none, 101⟩]).1
